import Mathlib

/- Verification of the segment-set algebra and matrix block-view engine of
   the hpp-constraints library.  A segment is a half-open integer interval
   [start, start+length) encoded as a pair (start, length).  The function
   `complement` is translated from src/src/explicit.cc; the BlockIndex
   algebra and the block-view engine live in matrix-view.hh, which is not
   part of the provided sources, so those definitions are modelled from
   the specification. -/

/-- A single index `j` lies in the segment `s = (start, length)`. -/
def inSeg (j : Nat) (s : Nat × Nat) : Prop := s.1 ≤ j ∧ j < s.1 + s.2

instance (j : Nat) (s : Nat × Nat) : Decidable (inSeg j s) :=
  inferInstanceAs (Decidable (_ ∧ _))

/-- A single index `j` lies in some segment of the list `l`. -/
def inSegs (j : Nat) (l : List (Nat × Nat)) : Prop := ∃ s ∈ l, inSeg j s

instance (j : Nat) (l : List (Nat × Nat)) : Decidable (inSegs j l) :=
  inferInstanceAs (Decidable (∃ s ∈ l, inSeg j s))

/-- The flattened, position-ordered list of indices covered by a segment list. -/
def indicesOf : List (Nat × Nat) → List Nat
  | [] => []
  | s :: rest => List.range' s.1 s.2 ++ indicesOf rest

/-- Total number of covered indices: the sum of the segment lengths. -/
def cardinal : List (Nat × Nat) → Nat
  | [] => 0
  | s :: rest => s.2 + cardinal rest

/-- Canonical form relative to a lower bound `B`: every segment starts at or
    after `B`, has positive length, and ends strictly before (hence neither
    overlapping nor adjacent to) the start of the next one. -/
def canonFrom : Nat → List (Nat × Nat) → Prop
  | _, [] => True
  | B, s :: rest => B ≤ s.1 ∧ 0 < s.2 ∧ canonFrom (s.1 + s.2 + 1) rest

def canonFromDec : (B : Nat) → (l : List (Nat × Nat)) → Decidable (canonFrom B l)
  | _, [] => isTrue trivial
  | B, s :: rest =>
    haveI : Decidable (canonFrom (s.1 + s.2 + 1) rest) := canonFromDec _ rest
    inferInstanceAs (Decidable (B ≤ s.1 ∧ 0 < s.2 ∧ canonFrom (s.1 + s.2 + 1) rest))

instance (B : Nat) (l : List (Nat × Nat)) : Decidable (canonFrom B l) := canonFromDec B l

/-- Canonical SegmentSet: sorted ascending by start, only non-empty segments,
    pairwise non-overlapping and non-adjacent. -/
def canonical (l : List (Nat × Nat)) : Prop := canonFrom 0 l

instance (l : List (Nat × Nat)) : Decidable (canonical l) := canonFromDec 0 l

/- ### The `complement` function, translated from src/src/explicit.cc

   C++ source:
     std::vector<bool> unionOfIntervals (size+1, false);
     for each (first, second) in intervals:
       for (i = first; i < first + second; ++i) unionOfIntervals[i] = true;
     unionOfIntervals[size] = true;
     state machine scanning i = 0 .. unionOfIntervals.size() (inclusive!),
     pushing (first, i - first) for each maximal run of false values.

   The upper bound of the scan loop is `i <= unionOfIntervals.size()`, so the
   final iteration reads `unionOfIntervals[size+1]`, one past the end of the
   vector.  The embedding makes that read explicit: the scanned list is the
   vector followed by one extra value `junk`, standing for whatever the
   out-of-bounds read yields. -/

/-- Mark the indices of segment `s` as covered: the inner write loop
    `for (i = first; i < first + second; ++i) v[i] = true`. -/
def writeSeg (v : List Bool) (s : Nat × Nat) : List Bool :=
  (List.range s.2).foldl (fun w k => w.set (s.1 + k) true) v

/-- The vector `unionOfIntervals`: `size+1` entries, `true` on every index
    covered by `intervals`, and the sentinel `true` at index `size`. -/
def unionVec (size : Nat) (intervals : List (Nat × Nat)) : List Bool :=
  (intervals.foldl writeSeg (List.replicate (size + 1) false)).set size true

/-- The scan loop of `complement`: two-state machine over the boolean vector,
    collecting each maximal run of `false` values as a segment. -/
def scanLoop : Nat → Nat → Nat → List (Nat × Nat) → List Bool → List (Nat × Nat)
  | _, _, _, res, [] => res
  | state, first, i, res, b :: rest =>
    if state = 0 ∧ b = false then scanLoop 1 i (i + 1) res rest
    else if state = 1 ∧ b = true then scanLoop 0 first (i + 1) (res ++ [(first, i - first)]) rest
    else scanLoop state first (i + 1) res rest

/-- `complement size intervals` from src/src/explicit.cc, with `result`
    initially empty.  `junk` is the value obtained by the final, out-of-bounds
    read of `unionOfIntervals[size+1]`; the correctness theorem holds for
    every value of `junk`. -/
def complement (size : Nat) (intervals : List (Nat × Nat)) (junk : Bool) : List (Nat × Nat) :=
  scanLoop 0 0 0 [] (unionVec size intervals ++ [junk])

/-- Read indices performed by the scan loop: each iteration with state 0
    evaluates `unionOfIntervals[i]` in the first condition, and each iteration
    with state 1 evaluates it in the second condition (the first one
    short-circuits); other states read nothing. -/
def scanReads : Nat → Nat → List Bool → List Nat
  | _, _, [] => []
  | state, i, b :: rest =>
    if state = 0 then i :: scanReads (if b = false then 1 else 0) (i + 1) rest
    else if state = 1 then i :: scanReads (if b = true then 0 else 1) (i + 1) rest
    else scanReads state (i + 1) rest

/-- Functional description of the scan loop: maximal runs of `false`,
    with an optional pending run start. -/
def runs : Nat → Option Nat → List Bool → List (Nat × Nat)
  | _, _, [] => []
  | i, none, b :: rest => if b then runs (i + 1) none rest else runs (i + 1) (some i) rest
  | i, some f, b :: rest =>
    if b then (f, i - f) :: runs (i + 1) none rest else runs (i + 1) (some f) rest

/-- An uncovered position of the scanned vector: `j = i + k` where entry `k`
    of `B` is `false`. -/
def uncovIdx (i : Nat) (B : List Bool) (j : Nat) : Prop :=
  ∃ k, k < B.length ∧ j = i + k ∧ B.getD k true = false

/- ### The BlockIndex segment algebra

   The implementation (class `Eigen::BlockIndex` of
   include/hpp/constraints/matrix-view.hh) is not part of the provided
   sources: only its unit test (tests/matrix-view.cc) is.  The definitions
   below are therefore modelled from the specification. -/

namespace BlockIndex

/-- Modelled from the spec: `BlockIndex::overlap` of matrix-view.hh (missing
    from src/) is true iff the two segments share at least one index; empty
    segments overlap nothing. -/
def overlap (a b : Nat × Nat) : Bool :=
  decide (max a.1 b.1 < min (a.1 + a.2) (b.1 + b.2))

/-- Modelled from the spec: `BlockIndex::difference` of matrix-view.hh
    (missing from src/): the indices in `a` not in `b`, as 0, 1 or 2
    segments — the piece of `a` left of `b` and the piece right of `b`,
    empty pieces omitted; when the segments do not overlap, `a` itself
    (omitted when empty, as in the unit test). -/
def difference (a b : Nat × Nat) : List (Nat × Nat) :=
  if overlap a b then
    (if 0 < min (a.1 + a.2) b.1 - a.1 then [(a.1, min (a.1 + a.2) b.1 - a.1)] else []) ++
    (if 0 < a.1 + a.2 - max a.1 (b.1 + b.2) then
      [(max a.1 (b.1 + b.2), a.1 + a.2 - max a.1 (b.1 + b.2))] else [])
  else if 0 < a.2 then [a] else []

/-- Modelled from the spec: `BlockIndex::split` of matrix-view.hh (missing
    from src/) removes the first `n` indices of the flattened index sequence;
    the mutation of the argument is modelled by returning the pair
    (removed prefix, remainder). -/
def split : List (Nat × Nat) → Nat → List (Nat × Nat) × List (Nat × Nat)
  | [], _ => ([], [])
  | s :: rest, n =>
    if n = 0 then ([], s :: rest)
    else if s.2 ≤ n then
      let p := split rest (n - s.2)
      (s :: p.1, p.2)
    else ([(s.1, n)], (s.1 + n, s.2 - n) :: rest)

/-- Modelled from the spec: `BlockIndex::extract` of matrix-view.hh (missing
    from src/) gathers the `n` indices at flattened positions
    `offset .. offset+n-1`, expressed in the original underlying indices. -/
def extract (S : List (Nat × Nat)) (off n : Nat) : List (Nat × Nat) :=
  (split (split S off).2 n).1

end BlockIndex

namespace BlockIndex

/-- Modelled from the spec: `BlockIndex::sort` of matrix-view.hh (missing
    from src/) sorts a segment list by start; realized as insertion sort. -/
def insertSeg (s : Nat × Nat) : List (Nat × Nat) → List (Nat × Nat)
  | [] => [s]
  | t :: rest => if s.1 ≤ t.1 then s :: t :: rest else t :: insertSeg s rest

/-- Modelled from the spec: sort by start. -/
def sort (l : List (Nat × Nat)) : List (Nat × Nat) :=
  l.foldr insertSeg []

/-- Merge pass of `shrink` over a start-sorted list: the current segment
    absorbs every following segment that touches or overlaps it; empty
    segments are never emitted. -/
def mergeGo (cur : Nat × Nat) : List (Nat × Nat) → List (Nat × Nat)
  | [] => if 0 < cur.2 then [cur] else []
  | t :: rest =>
    if t.1 ≤ cur.1 + cur.2 then mergeGo (cur.1, max (cur.1 + cur.2) (t.1 + t.2) - cur.1) rest
    else if 0 < cur.2 then cur :: mergeGo t rest
    else mergeGo t rest

/-- Modelled from the spec: `BlockIndex::shrink` of matrix-view.hh (missing
    from src/) canonicalizes a segment list: sort by start, then merge
    touching or overlapping segments, dropping empty ones. -/
def shrink (l : List (Nat × Nat)) : List (Nat × Nat) :=
  match sort l with
  | [] => []
  | s :: rest => mergeGo s rest

/-- Modelled from the spec: `BlockIndex::add` of matrix-view.hh (missing
    from src/) inserts a segment into a set, maintaining canonical form by
    merging overlapping or adjacent segments. -/
def add (l : List (Nat × Nat)) (s : Nat × Nat) : List (Nat × Nat) :=
  shrink (l ++ [s])

end BlockIndex

/- ### The block-view engine, modelled from the spec

   The `MatrixBlocks` view engine of matrix-view.hh is not part of the
   provided sources; the definitions below model it from the specification:
   a Block View is a pair of SegmentSets and no matrix data; its projections
   map view coordinates to backing-matrix coordinates through the flattened
   index lists of the two sets. -/

/-- Modelled from the spec: a dense matrix, abstracted as dimensions plus a
    total entry function. -/
structure MatD where
  rows : Nat
  cols : Nat
  entry : Nat → Nat → Int

/-- Transpose of a dense matrix. -/
def MatD.transpose (m : MatD) : MatD := ⟨m.cols, m.rows, fun i j => m.entry j i⟩

/-- Element-wise equality of dense matrices. -/
def MatD.EqD (m1 m2 : MatD) : Prop :=
  m1.rows = m2.rows ∧ m1.cols = m2.cols ∧
  ∀ i j, i < m1.rows → j < m1.cols → m1.entry i j = m2.entry i j

/-- Modelled from the spec: a Block View (`MatrixBlocks` of matrix-view.hh,
    missing from src/) is a pair of SegmentSets selecting rows and columns;
    it holds no reference to any matrix. -/
structure BlockView where
  rowSet : List (Nat × Nat)
  colSet : List (Nat × Nat)

/-- Modelled from the spec: `transpose()` swaps the row and column sets. -/
def BlockView.transpose (V : BlockView) : BlockView := ⟨V.colSet, V.rowSet⟩

/-- Number of selected rows. -/
def BlockView.nbRows (V : BlockView) : Nat := cardinal V.rowSet

/-- Number of selected columns. -/
def BlockView.nbCols (V : BlockView) : Nat := cardinal V.colSet

/-- Backing row index selected by row `p` of the view. -/
def BlockView.rowIdx (V : BlockView) (p : Nat) : Nat := (indicesOf V.rowSet).getD p 0

/-- Backing column index selected by column `q` of the view. -/
def BlockView.colIdx (V : BlockView) (q : Nat) : Nat := (indicesOf V.colSet).getD q 0

/-- Modelled from the spec: `rview(m)` — the read-only projection; entry
    `(p, q)` reads the backing matrix at the selected original coordinates. -/
def BlockView.rview (V : BlockView) (m : MatD) : MatD :=
  ⟨V.nbRows, V.nbCols, fun p q => m.entry (V.rowIdx p) (V.colIdx q)⟩

/-- Modelled from the spec: the read path of `lview(m)` — reading from the
    writable projection reads the very coordinates its writes target. -/
def BlockView.lviewEntry (V : BlockView) (m : MatD) (p q : Nat) : Int :=
  m.entry (V.rowIdx p) (V.colIdx q)

/-- The (row, column) positions of the backing matrix selected by the view. -/
def BlockView.selected (V : BlockView) (i j : Nat) : Bool :=
  (indicesOf V.rowSet).contains i && (indicesOf V.colSet).contains j

/-- Modelled from the spec: `lview(m).setZero()` writes 0 through the
    writable projection at every selected pair, directly into the backing
    matrix, touching no other entry. -/
def BlockView.lviewSetZero (V : BlockView) (m : MatD) : MatD :=
  ⟨m.rows, m.cols, fun i j => if V.selected i j then 0 else m.entry i j⟩

/-- The view's row and column sets fit within the matrix dimensions. -/
def fits (V : BlockView) (m : MatD) : Prop :=
  (∀ i ∈ indicesOf V.rowSet, i < m.rows) ∧ (∀ j ∈ indicesOf V.colSet, j < m.cols)

/-- A concrete matrix used by the closed witnesses. -/
def mW : MatD := ⟨2, 2, fun i j => Int.ofNat (2 * i + j + 1)⟩

/-- A concrete view used by the closed witnesses. -/
def vW : BlockView := ⟨[(0, 1)], [(1, 1)]⟩

lemma canonFrom_mono {B C : Nat} {l : List (Nat × Nat)} (h : canonFrom B l) (hCB : C ≤ B) :
    canonFrom C l := by
  cases l with
  | nil => trivial
  | cons s rest => exact ⟨le_trans hCB h.1, h.2⟩

lemma mem_indicesOf {j : Nat} {l : List (Nat × Nat)} : j ∈ indicesOf l ↔ inSegs j l := by
  induction l with
  | nil => simp [indicesOf, inSegs]
  | cons s rest ih =>
    simp only [indicesOf, List.mem_append, List.mem_range'_1, ih, inSegs, List.mem_cons]
    constructor
    · rintro (h | ⟨t, ht, hj⟩)
      · exact ⟨s, Or.inl rfl, h⟩
      · exact ⟨t, Or.inr ht, hj⟩
    · rintro ⟨t, (rfl | ht), hj⟩
      · exact Or.inl hj
      · exact Or.inr ⟨t, ht, hj⟩

lemma length_indicesOf (l : List (Nat × Nat)) : (indicesOf l).length = cardinal l := by
  induction l with
  | nil => rfl
  | cons s rest ih => simp [indicesOf, cardinal, ih]

lemma indicesOf_lower {B : Nat} {l : List (Nat × Nat)} (h : canonFrom B l) :
    ∀ j ∈ indicesOf l, B ≤ j := by
  induction l generalizing B with
  | nil => intro j hj; simp [indicesOf] at hj
  | cons s rest ih =>
    intro j hj
    rcases h with ⟨hBs, _, hrest⟩
    simp only [indicesOf, List.mem_append, List.mem_range'_1] at hj
    rcases hj with h1 | h2
    · omega
    · have := ih hrest j h2; omega

/-- The index list of a canonical set is strictly increasing. -/
lemma pairwise_indicesOf {B : Nat} {l : List (Nat × Nat)} (h : canonFrom B l) :
    List.Pairwise (· < ·) (indicesOf l) := by
  induction l generalizing B with
  | nil => exact List.Pairwise.nil
  | cons s rest ih =>
    rcases h with ⟨_, _, hrest⟩
    simp only [indicesOf]
    rw [List.pairwise_append]
    refine ⟨List.pairwise_lt_range' _ _, ih hrest, ?_⟩
    intro a ha b hb
    rw [List.mem_range'_1] at ha
    have := indicesOf_lower hrest b hb
    omega

lemma nodup_indicesOf {l : List (Nat × Nat)} (h : canonical l) : (indicesOf l).Nodup :=
  (pairwise_indicesOf h).imp Nat.ne_of_lt

lemma scanLoop_eq_runs :
    ∀ (B : List Bool) (i f : Nat) (res : List (Nat × Nat)),
      scanLoop 0 f i res B = res ++ runs i none B ∧
      scanLoop 1 f i res B = res ++ runs i (some f) B := by
  intro B
  induction B with
  | nil => intro i f res; simp [scanLoop, runs]
  | cons b rest ih =>
    intro i f res
    cases b with
    | false =>
      constructor
      · show scanLoop 1 i (i + 1) res rest = _
        rw [(ih (i + 1) i res).2]
        rfl
      · show scanLoop 1 f (i + 1) res rest = _
        rw [(ih (i + 1) f res).2]
        rfl
    | true =>
      constructor
      · show scanLoop 0 f (i + 1) res rest = _
        rw [(ih (i + 1) f res).1]
        rfl
      · show scanLoop 0 f (i + 1) (res ++ [(f, i - f)]) rest = _
        rw [(ih (i + 1) f (res ++ [(f, i - f)])).1]
        simp [runs]

lemma runs_nil (i : Nat) (st : Option Nat) : runs i st [] = [] := by cases st <;> rfl

lemma runs_single (i : Nat) (b : Bool) : runs i none [b] = [] := by
  cases b <;> simp [runs]

lemma runs_append_lastTrue :
    ∀ (xs : List Bool), xs.getLast? = some true →
      ∀ (ys : List Bool) (i : Nat) (st : Option Nat),
        runs i st (xs ++ ys) = runs i st xs ++ runs (i + xs.length) none ys := by
  intro xs
  induction xs with
  | nil => intro h; simp at h
  | cons b rest ih =>
    intro h ys i st
    cases rest with
    | nil =>
      simp only [List.getLast?_singleton, Option.some.injEq] at h
      subst h
      cases st with
      | none => simp [runs]
      | some f => simp [runs]
    | cons c rest2 =>
      have hlast : (c :: rest2).getLast? = some true := by
        rw [List.getLast?_cons_cons] at h; exact h
      have harith : i + 1 + (c :: rest2).length = i + (b :: c :: rest2).length := by
        simp; omega
      cases st with
      | none =>
        cases b with
        | false =>
          show runs (i + 1) (some i) (c :: rest2 ++ ys) = runs (i + 1) (some i) (c :: rest2) ++ _
          rw [ih hlast ys (i + 1) (some i), harith]
        | true =>
          show runs (i + 1) none (c :: rest2 ++ ys) = runs (i + 1) none (c :: rest2) ++ _
          rw [ih hlast ys (i + 1) none, harith]
      | some f =>
        cases b with
        | false =>
          show runs (i + 1) (some f) (c :: rest2 ++ ys) = runs (i + 1) (some f) (c :: rest2) ++ _
          rw [ih hlast ys (i + 1) (some f), harith]
        | true =>
          show (f, i - f) :: runs (i + 1) none (c :: rest2 ++ ys)
              = ((f, i - f) :: runs (i + 1) none (c :: rest2)) ++ _
          rw [ih hlast ys (i + 1) none, harith]
          rfl

lemma uncovIdx_cons {i j : Nat} {b : Bool} {rest : List Bool} :
    uncovIdx i (b :: rest) j ↔ ((j = i ∧ b = false) ∨ uncovIdx (i + 1) rest j) := by
  constructor
  · rintro ⟨k, hk, rfl, hg⟩
    cases k with
    | zero => exact Or.inl ⟨by omega, hg⟩
    | succ k2 =>
      refine Or.inr ⟨k2, by simpa using hk, by omega, ?_⟩
      simpa [List.getD] using hg
  · rintro (⟨rfl, hb⟩ | ⟨k, hk, rfl, hg⟩)
    · exact ⟨0, by simp, by omega, hb⟩
    · exact ⟨k + 1, by simpa using hk, by omega, by simpa [List.getD] using hg⟩

lemma inSegs_runs :
    ∀ (B : List Bool), B.getLast? = some true →
      ∀ (i : Nat) (st : Option Nat) (j : Nat), (∀ f, st = some f → f ≤ i) →
        (inSegs j (runs i st B) ↔
          ((∃ f, st = some f ∧ f ≤ j ∧ j < i) ∨ uncovIdx i B j)) := by
  intro B
  induction B with
  | nil => intro h; simp at h
  | cons b rest ih =>
    intro h i st j hst
    cases rest with
    | nil =>
      simp only [List.getLast?_singleton, Option.some.injEq] at h
      subst h
      cases st with
      | none =>
        simp only [runs, if_pos rfl, runs_nil]
        simp [inSegs, uncovIdx, List.getD]
      | some f =>
        have hf := hst f rfl
        simp only [runs, if_pos rfl, runs_nil]
        simp [inSegs, inSeg, uncovIdx, List.getD]
        omega
    | cons c rest2 =>
      have hlast : (c :: rest2).getLast? = some true := by
        rw [List.getLast?_cons_cons] at h; exact h
      cases st with
      | none =>
        cases b with
        | false =>
          show inSegs j (runs (i + 1) (some i) (c :: rest2)) ↔ _
          rw [ih hlast (i + 1) (some i) j (by intro f hf; cases hf; omega)]
          rw [uncovIdx_cons (i := i)]
          constructor
          · rintro (⟨f, hf, h1, h2⟩ | h2)
            · cases hf; exact Or.inr (Or.inl ⟨by omega, rfl⟩)
            · exact Or.inr (Or.inr h2)
          · rintro (⟨f, hf, _⟩ | (⟨hji, _⟩ | h2))
            · exact absurd hf (by simp)
            · exact Or.inl ⟨i, rfl, by omega⟩
            · exact Or.inr h2
        | true =>
          show inSegs j (runs (i + 1) none (c :: rest2)) ↔ _
          rw [ih hlast (i + 1) none j (by intro f hf; cases hf)]
          rw [uncovIdx_cons (i := i)]
          constructor
          · rintro (⟨f, hf, _⟩ | h2)
            · exact absurd hf (by simp)
            · exact Or.inr (Or.inr h2)
          · rintro (⟨f, hf, _⟩ | (⟨rfl, hb⟩ | h2))
            · exact absurd hf (by simp)
            · exact absurd hb (by simp)
            · exact Or.inr h2
      | some f =>
        have hf := hst f rfl
        cases b with
        | false =>
          show inSegs j (runs (i + 1) (some f) (c :: rest2)) ↔ _
          rw [ih hlast (i + 1) (some f) j (by intro g hg; cases hg; omega)]
          rw [uncovIdx_cons (i := i)]
          constructor
          · rintro (⟨g, hg, h1, h2⟩ | h2)
            · cases hg
              rcases Nat.lt_or_ge j i with hlt | hge
              · exact Or.inl ⟨f, rfl, h1, hlt⟩
              · exact Or.inr (Or.inl ⟨by omega, rfl⟩)
            · exact Or.inr (Or.inr h2)
          · rintro (⟨g, hg, h1, h2⟩ | (⟨rfl, _⟩ | h2))
            · cases hg; exact Or.inl ⟨f, rfl, h1, by omega⟩
            · exact Or.inl ⟨f, rfl, by omega⟩
            · exact Or.inr h2
        | true =>
          show inSegs j ((f, i - f) :: runs (i + 1) none (c :: rest2)) ↔ _
          have htail := ih hlast (i + 1) none j (by intro g hg; cases hg)
          rw [uncovIdx_cons (i := i)]
          constructor
          · intro hj
            rcases hj with ⟨s, hs, hjs⟩
            rcases List.mem_cons.mp hs with rfl | hs2
            · rcases hjs with ⟨h1, h2⟩
              exact Or.inl ⟨f, rfl, h1, by simp at h2; omega⟩
            · have := htail.mp ⟨s, hs2, hjs⟩
              rcases this with ⟨g, hg, _⟩ | h2
              · exact absurd hg (by simp)
              · exact Or.inr (Or.inr h2)
          · rintro (⟨g, hg, h1, h2⟩ | (⟨rfl, hb⟩ | h2))
            · cases hg
              exact ⟨(f, i - f), List.mem_cons_self _ _, h1, by simp; omega⟩
            · exact absurd hb (by simp)
            · rcases (htail.mpr (Or.inr h2)) with ⟨s, hs, hjs⟩
              exact ⟨s, List.mem_cons_of_mem _ hs, hjs⟩

lemma canonFrom_runs :
    ∀ (B : List Bool) (i : Nat),
      canonFrom i (runs i none B) ∧
      (∀ f, f < i → canonFrom f (runs i (some f) B)) := by
  intro B
  induction B with
  | nil => intro i; exact ⟨trivial, fun _ _ => trivial⟩
  | cons b rest ih =>
    intro i
    cases b with
    | false =>
      constructor
      · show canonFrom i (runs (i + 1) (some i) rest)
        exact (ih (i + 1)).2 i (by omega)
      · intro f hf
        show canonFrom f (runs (i + 1) (some f) rest)
        exact (ih (i + 1)).2 f (by omega)
    | true =>
      constructor
      · show canonFrom i (runs (i + 1) none rest)
        exact canonFrom_mono (ih (i + 1)).1 (by omega)
      · intro f hf
        show canonFrom f ((f, i - f) :: runs (i + 1) none rest)
        refine ⟨le_refl _, by omega, ?_⟩
        have : f + (i - f) + 1 = i + 1 := by omega
        rw [this]
        exact (ih (i + 1)).1

lemma foldl_set_length :
    ∀ (ks : List Nat) (v : List Bool) (a : Nat),
      ((ks.foldl (fun w k => w.set (a + k) true) v)).length = v.length := by
  intro ks
  induction ks with
  | nil => intro v a; rfl
  | cons k rest ih =>
    intro v a
    rw [List.foldl_cons, ih]
    exact List.length_set v _ _

lemma length_writeSeg (v : List Bool) (s : Nat × Nat) : (writeSeg v s).length = v.length :=
  foldl_set_length (List.range s.2) v s.1

lemma length_unionFold :
    ∀ (ivs : List (Nat × Nat)) (v : List Bool), (ivs.foldl writeSeg v).length = v.length := by
  intro ivs
  induction ivs with
  | nil => intro v; rfl
  | cons s rest ih =>
    intro v
    rw [List.foldl_cons, ih, length_writeSeg]

lemma length_unionVec (size : Nat) (ivs : List (Nat × Nat)) :
    (unionVec size ivs).length = size + 1 := by
  rw [unionVec, List.length_set, length_unionFold, List.length_replicate]

lemma getD_set (l : List Bool) (k j : Nat) (d : Bool) :
    (l.set k true).getD j d = if k = j ∧ k < l.length then true else l.getD j d := by
  rw [List.getD_eq_getElem?_getD, List.getD_eq_getElem?_getD, List.getElem?_set]
  by_cases hkj : k = j
  · subst hkj
    by_cases hk : k < l.length
    · simp [hk]
    · simp [hk, List.getElem?_eq_none (by omega : l.length ≤ k)]
  · simp [hkj]

lemma getD_writeSegAux :
    ∀ (m a : Nat) (v : List Bool) (j : Nat) (d : Bool),
      ((List.range m).foldl (fun w k => w.set (a + k) true) v).getD j d =
        if a ≤ j ∧ j < a + m ∧ j < v.length then true else v.getD j d := by
  intro m
  induction m with
  | zero =>
    intro a v j d
    rw [if_neg (by omega)]
    rfl
  | succ m ih =>
    intro a v j d
    rw [List.range_succ, List.foldl_append, List.foldl_cons, List.foldl_nil, getD_set, ih,
      foldl_set_length]
    split_ifs <;> first | rfl | omega

lemma getD_writeSeg (v : List Bool) (s : Nat × Nat) (j : Nat) (d : Bool) :
    (writeSeg v s).getD j d = if s.1 ≤ j ∧ j < s.1 + s.2 ∧ j < v.length then true
      else v.getD j d :=
  getD_writeSegAux s.2 s.1 v j d

lemma getD_unionFold :
    ∀ (ivs : List (Nat × Nat)) (v : List Bool) (j : Nat) (d : Bool), j < v.length →
      ((ivs.foldl writeSeg v).getD j d = true ↔
        (v.getD j d = true ∨ ∃ s ∈ ivs, s.1 ≤ j ∧ j < s.1 + s.2)) := by
  intro ivs
  induction ivs with
  | nil => intro v j d _; simp
  | cons s rest ih =>
    intro v j d hj
    rw [List.foldl_cons, ih (writeSeg v s) j d (by rw [length_writeSeg]; exact hj),
      getD_writeSeg]
    by_cases hc : s.1 ≤ j ∧ j < s.1 + s.2 ∧ j < v.length
    · rw [if_pos hc]
      constructor
      · intro _; exact Or.inr ⟨s, List.mem_cons_self _ _, hc.1, hc.2.1⟩
      · intro _; exact Or.inl rfl
    · rw [if_neg hc]
      constructor
      · rintro (h | ⟨t, ht, hc2⟩)
        · exact Or.inl h
        · exact Or.inr ⟨t, List.mem_cons_of_mem _ ht, hc2⟩
      · rintro (h | ⟨t, ht, hc2⟩)
        · exact Or.inl h
        · rcases List.mem_cons.mp ht with rfl | ht2
          · exact absurd ⟨hc2.1, hc2.2, hj⟩ hc
          · exact Or.inr ⟨t, ht2, hc2⟩

lemma getD_unionVec (size : Nat) (ivs : List (Nat × Nat)) (j : Nat) (hj : j ≤ size) :
    ((unionVec size ivs).getD j true = false ↔ (j ≠ size ∧ ¬ inSegs j ivs)) := by
  have hlenr : ((List.replicate (size + 1) false) : List Bool).length = size + 1 :=
    List.length_replicate _ _
  have hlenf : ((ivs.foldl writeSeg (List.replicate (size + 1) false))).length = size + 1 := by
    rw [length_unionFold, hlenr]
  rw [unionVec, getD_set]
  by_cases hjs : j = size
  · subst hjs
    rw [if_pos ⟨rfl, by omega⟩]
    simp
  · rw [if_neg (by intro h; exact hjs h.1.symm)]
    have hrep : ((List.replicate (size + 1) false) : List Bool).getD j true = false := by
      rw [List.getD_eq_getElem?_getD, List.getElem?_replicate, if_pos (by omega)]
      rfl
    have h2 := getD_unionFold ivs (List.replicate (size + 1) false) j true (by omega)
    rw [hrep] at h2
    simp only [Bool.false_eq_true, false_or] at h2
    constructor
    · intro hfalse
      refine ⟨hjs, fun hcontra => ?_⟩
      rcases hcontra with ⟨s, hs, hcov⟩
      have := h2.mpr ⟨s, hs, hcov.1, hcov.2⟩
      rw [this] at hfalse
      exact absurd hfalse (by simp)
    · intro ⟨_, hnot⟩
      cases hval : (ivs.foldl writeSeg (List.replicate (size + 1) false)).getD j true
      · rfl
      · rcases h2.mp hval with ⟨s, hs, h1, hcov⟩
        exact absurd ⟨s, hs, h1, hcov⟩ hnot

lemma unionVec_lastTrue (size : Nat) (intervals : List (Nat × Nat)) :
    (unionVec size intervals).getLast? = some true := by
  rw [List.getLast?_eq_getElem?, length_unionVec]
  have hlenf : ((intervals.foldl writeSeg (List.replicate (size + 1) false))).length
      = size + 1 := by
    rw [length_unionFold, List.length_replicate]
  simp only [unionVec, List.getElem?_set, Nat.add_sub_cancel]
  simp [hlenf]

lemma complement_eq_runs (size : Nat) (intervals : List (Nat × Nat)) (junk : Bool) :
    complement size intervals junk = runs 0 none (unionVec size intervals) := by
  rw [complement, (scanLoop_eq_runs _ 0 0 []).1,
    runs_append_lastTrue _ (unionVec_lastTrue size intervals) [junk] 0 none, runs_single]
  simp

/-- C1: for every `size ≥ 0` and every list of intervals lying within
    `[0, size)`, `complement` (called with an initially empty result) stores in
    the result exactly the canonical complement of the union of the intervals
    within `[0, size)`: its segments cover precisely the indices of `[0, size)`
    covered by no interval, and the result is a sorted list of non-empty,
    pairwise non-overlapping and non-adjacent segments — for every value of
    the out-of-bounds read. -/
theorem complement_correct (size : Nat) (intervals : List (Nat × Nat)) (junk : Bool)
    (_hin : ∀ s ∈ intervals, s.1 + s.2 ≤ size) :
    (∀ j, inSegs j (complement size intervals junk) ↔ (j < size ∧ ¬ inSegs j intervals)) ∧
    canonical (complement size intervals junk) := by
  have hlen : (unionVec size intervals).length = size + 1 := length_unionVec size intervals
  have hlast : (unionVec size intervals).getLast? = some true := unionVec_lastTrue size intervals
  have hc : complement size intervals junk = runs 0 none (unionVec size intervals) :=
    complement_eq_runs size intervals junk
  constructor
  · intro j
    rw [hc, inSegs_runs _ hlast 0 none j (by intro f hf; cases hf)]
    constructor
    · rintro (⟨f, hf, _⟩ | ⟨k, hk, hjk, hg⟩)
      · cases hf
      · rw [hlen] at hk
        have hj0 : j = k := by omega
        subst hj0
        have := (getD_unionVec size intervals j (by omega)).mp hg
        exact ⟨by omega, this.2⟩
    · rintro ⟨hjsize, hnot⟩
      exact Or.inr ⟨j, by rw [hlen]; omega, by omega,
        (getD_unionVec size intervals j (by omega)).mpr ⟨by omega, hnot⟩⟩
  · rw [hc]
    exact (canonFrom_runs _ 0).1

theorem complement_correct_w :
    inSegs 0 (complement 5 [(1, 2)] false) ∧ canonical (complement 5 [(1, 2)] false) :=
  ⟨((complement_correct 5 [(1, 2)] false (by decide)).1 0).mpr (by decide),
   (complement_correct 5 [(1, 2)] false (by decide)).2⟩

lemma scanReads_range :
    ∀ (B : List Bool) (i st : Nat), st = 0 ∨ st = 1 →
      scanReads st i B = List.range' i B.length := by
  intro B
  induction B with
  | nil =>
    intro i st hst
    rcases hst with rfl | rfl <;> rfl
  | cons b rest ih =>
    intro i st hst
    rcases hst with rfl | rfl
    · show (i :: scanReads (if b = false then 1 else 0) (i + 1) rest) = _
      rw [List.length_cons, List.range'_succ]
      cases b
      · rw [if_pos rfl, ih (i + 1) 1 (Or.inr rfl)]
      · rw [if_neg (by simp), ih (i + 1) 0 (Or.inl rfl)]
    · show (i :: scanReads (if b = true then 0 else 1) (i + 1) rest) = _
      rw [List.length_cons, List.range'_succ]
      cases b
      · rw [if_neg (by simp), ih (i + 1) 1 (Or.inr rfl)]
      · rw [if_pos rfl, ih (i + 1) 0 (Or.inl rfl)]

/-- C10: the scan loop of `complement` runs `i` from `0` to
    `unionOfIntervals.size()` inclusive and evaluates `unionOfIntervals[i]` on
    every iteration (the state is always 0 or 1), so it performs a read at
    index `size + 1` while the vector has exactly `size + 1` entries: the final
    read is out of bounds, contradicting the claim that every read index is
    strictly below `size + 1`. -/
theorem complement_oob_read (size : Nat) (intervals : List (Nat × Nat)) (junk : Bool) :
    (size + 1) ∈ scanReads 0 0 (unionVec size intervals ++ [junk]) ∧
    (unionVec size intervals).length = size + 1 := by
  have hlen := length_unionVec size intervals
  constructor
  · rw [scanReads_range _ 0 0 (Or.inl rfl), List.mem_range'_1]
    simp [hlen]
  · exact hlen

lemma take_range' : ∀ (m s n : Nat), (List.range' s m).take n = List.range' s (min n m) := by
  intro m
  induction m with
  | zero => intro s n; simp
  | succ m ih =>
    intro s n
    cases n with
    | zero => simp
    | succ n =>
      rw [List.range'_succ, List.take_succ_cons, ih, Nat.succ_min_succ, List.range'_succ]

lemma drop_range' : ∀ (m s n : Nat), (List.range' s m).drop n = List.range' (s + n) (m - n) := by
  intro m
  induction m with
  | zero => intro s n; simp
  | succ m ih =>
    intro s n
    cases n with
    | zero => simp
    | succ n =>
      rw [List.range'_succ, List.drop_succ_cons, ih]
      congr 1 <;> omega

lemma split_indices :
    ∀ (S : List (Nat × Nat)) (n : Nat),
      indicesOf (BlockIndex.split S n).1 = (indicesOf S).take n ∧
      indicesOf (BlockIndex.split S n).2 = (indicesOf S).drop n := by
  intro S
  induction S with
  | nil => intro n; simp [BlockIndex.split, indicesOf]
  | cons s rest ih =>
    intro n
    by_cases hn0 : n = 0
    · subst hn0; simp [BlockIndex.split, indicesOf]
    · by_cases hsn : s.2 ≤ n
      · rw [BlockIndex.split, if_neg hn0, if_pos hsn]
        constructor
        · show indicesOf (s :: (BlockIndex.split rest (n - s.2)).1) = _
          have h1 : (List.range' s.1 s.2).take n = List.range' s.1 s.2 :=
            List.take_of_length_le (by rw [List.length_range']; exact hsn)
          rw [indicesOf, (ih (n - s.2)).1, indicesOf, List.take_append_eq_append_take, h1,
            List.length_range']
        · show indicesOf (BlockIndex.split rest (n - s.2)).2 = _
          rw [(ih (n - s.2)).2, indicesOf, List.drop_append_eq_append_drop,
            List.length_range', drop_range', (by omega : s.2 - n = 0)]
          simp
      · rw [BlockIndex.split, if_neg hn0, if_neg hsn]
        constructor
        · show indicesOf [(s.1, n)] = _
          rw [indicesOf, indicesOf, indicesOf, List.take_append_eq_append_take,
            List.length_range', (by omega : n - s.2 = 0), take_range',
            (by omega : min n s.2 = n)]
          simp
        · show indicesOf ((s.1 + n, s.2 - n) :: rest) = _
          rw [indicesOf, indicesOf, List.drop_append_eq_append_drop, List.length_range',
            drop_range', (by omega : n - s.2 = 0)]
          simp

lemma split_canonFrom :
    ∀ (S : List (Nat × Nat)) (n B : Nat), canonFrom B S →
      canonFrom B (BlockIndex.split S n).1 ∧ canonFrom B (BlockIndex.split S n).2 := by
  intro S
  induction S with
  | nil => intro n B _; exact ⟨trivial, trivial⟩
  | cons s rest ih =>
    intro n B hc
    rcases hc with ⟨hB, hpos, hrest⟩
    by_cases hn0 : n = 0
    · subst hn0
      rw [BlockIndex.split, if_pos rfl]
      exact ⟨trivial, hB, hpos, hrest⟩
    · by_cases hsn : s.2 ≤ n
      · rw [BlockIndex.split, if_neg hn0, if_pos hsn]
        refine ⟨⟨hB, hpos, (ih (n - s.2) (s.1 + s.2 + 1) hrest).1⟩, ?_⟩
        exact canonFrom_mono (ih (n - s.2) (s.1 + s.2 + 1) hrest).2 (by omega)
      · rw [BlockIndex.split, if_neg hn0, if_neg hsn]
        refine ⟨⟨hB, by omega, trivial⟩, ⟨by omega, by omega, ?_⟩⟩
        have : s.1 + n + (s.2 - n) + 1 = s.1 + s.2 + 1 := by omega
        rw [this]
        exact hrest

lemma split_zero : ∀ (S : List (Nat × Nat)), BlockIndex.split S 0 = ([], S) := by
  intro S
  cases S with
  | nil => rfl
  | cons s rest => rw [BlockIndex.split, if_pos rfl]

lemma split_full :
    ∀ (S : List (Nat × Nat)) (B : Nat), canonFrom B S →
      BlockIndex.split S (cardinal S) = (S, []) := by
  intro S
  induction S with
  | nil => intro B _; rfl
  | cons s rest ih =>
    intro B hc
    rcases hc with ⟨_, hpos, hrest⟩
    rw [cardinal, BlockIndex.split, if_neg (by omega), if_pos (by omega),
      (by omega : s.2 + cardinal rest - s.2 = cardinal rest), ih (s.1 + s.2 + 1) hrest]

/-- C2: for a canonical SegmentSet `S` with cardinal `k` and `0 ≤ n ≤ k`,
    `split` returns a canonical set holding exactly the first `n` indices of
    the flattened index sequence of `S` and leaves the remainder, also
    canonical, holding exactly the other `k - n` indices; the two parts are
    disjoint and together reconstruct `S`; `split S 0` returns the empty set
    leaving `S` unchanged and `split S k` empties `S`, returning the original. -/
theorem split_correct (S : List (Nat × Nat)) (n : Nat) (hS : canonical S)
    (_hn : n ≤ cardinal S) :
    indicesOf (BlockIndex.split S n).1 = (indicesOf S).take n ∧
    indicesOf (BlockIndex.split S n).2 = (indicesOf S).drop n ∧
    canonical (BlockIndex.split S n).1 ∧
    canonical (BlockIndex.split S n).2 ∧
    (∀ j, ¬(inSegs j (BlockIndex.split S n).1 ∧ inSegs j (BlockIndex.split S n).2)) ∧
    (∀ j, inSegs j S ↔ (inSegs j (BlockIndex.split S n).1 ∨ inSegs j (BlockIndex.split S n).2)) ∧
    BlockIndex.split S 0 = ([], S) ∧
    BlockIndex.split S (cardinal S) = (S, []) := by
  have hidx := split_indices S n
  have hcan := split_canonFrom S n 0 hS
  have hdisj : (indicesOf (BlockIndex.split S n).1).Disjoint
      (indicesOf (BlockIndex.split S n).2) := by
    rw [hidx.1, hidx.2]
    exact List.disjoint_of_nodup_append
      (by rw [List.take_append_drop]; exact nodup_indicesOf hS)
  refine ⟨hidx.1, hidx.2, hcan.1, hcan.2, ?_, ?_, split_zero S, split_full S 0 hS⟩
  · intro j ⟨h1, h2⟩
    exact hdisj (mem_indicesOf.mpr h1) (mem_indicesOf.mpr h2)
  · intro j
    rw [← mem_indicesOf, ← mem_indicesOf, ← mem_indicesOf, hidx.1, hidx.2,
      ← List.mem_append, List.take_append_drop]

theorem split_correct_w :
    canonical (BlockIndex.split [(4, 3), (9, 2), (15, 5)] 4).1 ∧
    indicesOf (BlockIndex.split [(4, 3), (9, 2), (15, 5)] 4).1
      = (indicesOf [(4, 3), (9, 2), (15, 5)]).take 4 :=
  ⟨(split_correct [(4, 3), (9, 2), (15, 5)] 4 (by decide) (by decide)).2.2.1,
   (split_correct [(4, 3), (9, 2), (15, 5)] 4 (by decide) (by decide)).1⟩

/-- C3: for a canonical SegmentSet `S` and `offset + n ≤ cardinal S`,
    `extract S offset n` is the canonical SegmentSet of the `n` indices at
    flattened positions `offset .. offset+n-1` of `S`, expressed in the
    original underlying coordinate space (an index-gather through `S`); in
    particular for `S = {[4,7),[9,11),[15,20)}` the spec's three examples. -/
theorem extract_correct (S : List (Nat × Nat)) (off n : Nat) (hS : canonical S)
    (_hb : off + n ≤ cardinal S) :
    indicesOf (BlockIndex.extract S off n) = ((indicesOf S).drop off).take n ∧
    canonical (BlockIndex.extract S off n) ∧
    BlockIndex.extract [(4, 3), (9, 2), (15, 5)] 0 3 = [(4, 3)] ∧
    BlockIndex.extract [(4, 3), (9, 2), (15, 5)] 4 1 = [(10, 1)] ∧
    BlockIndex.extract [(4, 3), (9, 2), (15, 5)] 4 2 = [(10, 1), (15, 1)] := by
  refine ⟨?_, ?_, by decide, by decide, by decide⟩
  · rw [BlockIndex.extract, (split_indices (BlockIndex.split S off).2 n).1,
      (split_indices S off).2]
  · exact (split_canonFrom (BlockIndex.split S off).2 n 0 (split_canonFrom S off 0 hS).2).1

theorem extract_correct_w :
    BlockIndex.extract [(4, 3), (9, 2), (15, 5)] 4 2 = [(10, 1), (15, 1)] ∧
    canonical (BlockIndex.extract [(4, 3), (9, 2), (15, 5)] 4 2) :=
  ⟨(extract_correct [(4, 3), (9, 2), (15, 5)] 4 2 (by decide) (by decide)).2.2.2.2,
   (extract_correct [(4, 3), (9, 2), (15, 5)] 4 2 (by decide) (by decide)).2.1⟩

lemma overlap_iff (a b : Nat × Nat) :
    BlockIndex.overlap a b = true ↔ ∃ j, inSeg j a ∧ inSeg j b := by
  rw [BlockIndex.overlap, decide_eq_true_eq]
  constructor
  · intro h
    exact ⟨max a.1 b.1, ⟨by omega, by omega⟩, ⟨by omega, by omega⟩⟩
  · rintro ⟨j, ⟨h1, h2⟩, ⟨h3, h4⟩⟩
    omega

/-- C8: `overlap a b` is true iff the segments share at least one index; a
    length-0 segment overlaps nothing, including itself; overlap is reflexive
    on non-empty segments and symmetric. -/
theorem overlap_correct :
    (∀ a b : Nat × Nat, BlockIndex.overlap a b = true ↔ ∃ j, inSeg j a ∧ inSeg j b) ∧
    (∀ a b : Nat × Nat, a.2 = 0 →
      BlockIndex.overlap a b = false ∧ BlockIndex.overlap b a = false) ∧
    (∀ a : Nat × Nat, 0 < a.2 → BlockIndex.overlap a a = true) ∧
    (∀ a b : Nat × Nat, BlockIndex.overlap a b = BlockIndex.overlap b a) := by
  refine ⟨overlap_iff, ?_, ?_, ?_⟩
  · intro a b ha
    constructor <;> (rw [BlockIndex.overlap, decide_eq_false_iff_not]; omega)
  · intro a ha
    rw [BlockIndex.overlap, decide_eq_true_eq]
    omega
  · intro a b
    rw [BlockIndex.overlap, BlockIndex.overlap]
    have h : (max a.1 b.1 < min (a.1 + a.2) (b.1 + b.2)) ↔
        (max b.1 a.1 < min (b.1 + b.2) (a.1 + a.2)) := by omega
    rw [decide_eq_decide]
    exact h

theorem overlap_correct_w :
    BlockIndex.overlap (0, 0) (1, 2) = false ∧ BlockIndex.overlap (3, 2) (3, 2) = true :=
  ⟨(overlap_correct.2.1 (0, 0) (1, 2) rfl).1, overlap_correct.2.2.1 (3, 2) (by decide)⟩

/-- C4 as stated is false: for the empty segment `a = [0,0)` and `b = [1,3)`
    the segments do not overlap, yet `difference a b` is the empty list, not
    `{a}` — exactly as required by the unit test
    `BOOST_CHECK_EQUAL(BlockIndex::difference (c, b), segments_t ())`. -/
theorem difference_claim_cex :
    BlockIndex.overlap (0, 0) (1, 2) = false ∧
    BlockIndex.difference (0, 0) (1, 2) = [] ∧
    BlockIndex.difference (0, 0) (1, 2) ≠ [((0 : Nat), (0 : Nat))] := by decide

/-- C4 (amended): `difference a b` is the set of indices in `a` and not in
    `b`, as 0, 1 or 2 segments: `{a}` when `a` is non-empty and `a`, `b` do
    not overlap (`{}` when `a` is empty), `{}` when `b` fully covers `a`, and
    both remaining pieces when `b` splits `a`; the disjoint union of
    `difference a b` with the intersection of `a` and `b` is exactly `a`,
    with no index duplicated. -/
theorem difference_correct (a b : Nat × Nat) :
    (∀ j, inSegs j (BlockIndex.difference a b) ↔ (inSeg j a ∧ ¬ inSeg j b)) ∧
    (BlockIndex.difference a b).length ≤ 2 ∧
    (0 < a.2 → BlockIndex.overlap a b = false → BlockIndex.difference a b = [a]) ∧
    ((∀ j, inSeg j a → inSeg j b) → BlockIndex.difference a b = []) ∧
    (a.1 < b.1 → b.1 + b.2 < a.1 + a.2 → 0 < b.2 →
      BlockIndex.difference a b
        = [(a.1, b.1 - a.1), (b.1 + b.2, a.1 + a.2 - (b.1 + b.2))]) ∧
    (∀ j, ¬(inSegs j (BlockIndex.difference a b) ∧ inSeg j a ∧ inSeg j b)) ∧
    (∀ j, (inSegs j (BlockIndex.difference a b) ∨ (inSeg j a ∧ inSeg j b)) ↔ inSeg j a) := by
  have hpair : ∀ (j : Nat) (x y : Nat × Nat), inSegs j [x, y] ↔ (inSeg j x ∨ inSeg j y) := by
    intro j x y; simp [inSegs]
  have hone : ∀ (j : Nat) (x : Nat × Nat), inSegs j [x] ↔ inSeg j x := by
    intro j x; simp [inSegs]
  have hmain : ∀ j, inSegs j (BlockIndex.difference a b) ↔ (inSeg j a ∧ ¬ inSeg j b) := by
    intro j
    rw [BlockIndex.difference]
    by_cases hov : BlockIndex.overlap a b = true
    · rw [if_pos hov]
      rw [BlockIndex.overlap, decide_eq_true_eq] at hov
      by_cases h1 : 0 < min (a.1 + a.2) b.1 - a.1
      · by_cases h2 : 0 < a.1 + a.2 - max a.1 (b.1 + b.2)
        · rw [if_pos h1, if_pos h2]
          show inSegs j [(a.1, min (a.1 + a.2) b.1 - a.1),
            (max a.1 (b.1 + b.2), a.1 + a.2 - max a.1 (b.1 + b.2))] ↔ _
          rw [hpair]
          simp only [inSeg]
          omega
        · rw [if_pos h1, if_neg h2]
          show inSegs j [(a.1, min (a.1 + a.2) b.1 - a.1)] ↔ _
          rw [hone]
          simp only [inSeg]
          omega
      · by_cases h2 : 0 < a.1 + a.2 - max a.1 (b.1 + b.2)
        · rw [if_neg h1, if_pos h2]
          show inSegs j [(max a.1 (b.1 + b.2), a.1 + a.2 - max a.1 (b.1 + b.2))] ↔ _
          rw [hone]
          simp only [inSeg]
          omega
        · rw [if_neg h1, if_neg h2]
          constructor
          · rintro ⟨s, hs, _⟩; cases hs
          · intro hj
            exfalso
            simp only [inSeg] at hj
            omega
    · rw [Bool.not_eq_true] at hov
      rw [if_neg (by rw [hov]; simp)]
      rw [BlockIndex.overlap, decide_eq_false_iff_not] at hov
      by_cases ha : 0 < a.2
      · rw [if_pos ha]
        simp only [inSegs, inSeg, List.mem_singleton]
        constructor
        · rintro ⟨s, rfl, hjs⟩
          omega
        · intro hj
          exact ⟨a, rfl, by omega⟩
      · rw [if_neg ha]
        simp only [inSegs, inSeg, List.mem_nil_iff]
        constructor
        · rintro ⟨s, h, _⟩; cases h
        · intro hj; omega
  refine ⟨hmain, ?_, ?_, ?_, ?_, ?_, ?_⟩
  · rw [BlockIndex.difference]
    split_ifs <;> simp
  · intro ha hov
    rw [BlockIndex.difference, if_neg (by rw [hov]; simp), if_pos ha]
  · intro hsub
    by_cases ha : 0 < a.2
    · have h1 := hsub a.1 ⟨le_refl _, by omega⟩
      have h2 := hsub (a.1 + a.2 - 1) ⟨by omega, by omega⟩
      rw [inSeg] at h1 h2
      rw [BlockIndex.difference,
        if_pos (by rw [BlockIndex.overlap, decide_eq_true_eq]; omega),
        if_neg (by omega), if_neg (by omega)]
      rfl
    · have hov : BlockIndex.overlap a b = false := by
        rw [BlockIndex.overlap, decide_eq_false_iff_not]; omega
      rw [BlockIndex.difference, if_neg (by rw [hov]; simp), if_neg ha]
  · intro h1 h2 h3
    rw [BlockIndex.difference,
      if_pos (by rw [BlockIndex.overlap, decide_eq_true_eq]; omega),
      if_pos (by omega), if_pos (by omega)]
    have e1 : min (a.1 + a.2) b.1 = b.1 := by omega
    have e2 : max a.1 (b.1 + b.2) = b.1 + b.2 := by omega
    rw [e1, e2]
    rfl
  · intro j ⟨hd, hab⟩
    have := (hmain j).mp hd
    exact this.2 hab.2
  · intro j
    rw [hmain j]
    rw [inSeg, inSeg]
    by_cases hb : b.1 ≤ j ∧ j < b.1 + b.2 <;> simp [inSeg, hb]

theorem difference_correct_w :
    BlockIndex.difference (0, 1) (1, 2) = [(0, 1)] ∧
    BlockIndex.difference (0, 5) (1, 2) = [(0, 1), (3, 2)] :=
  ⟨(difference_correct (0, 1) (1, 2)).2.2.1 (by decide) (by decide),
   (difference_correct (0, 5) (1, 2)).2.2.2.2.1 (by decide) (by decide) (by decide)⟩

lemma mem_insertSeg :
    ∀ (l : List (Nat × Nat)) (s u : Nat × Nat),
      u ∈ BlockIndex.insertSeg s l ↔ (u = s ∨ u ∈ l) := by
  intro l
  induction l with
  | nil => intro s u; simp [BlockIndex.insertSeg]
  | cons t rest ih =>
    intro s u
    rw [BlockIndex.insertSeg]
    by_cases h : s.1 ≤ t.1
    · rw [if_pos h]
      simp
    · rw [if_neg h]
      simp only [List.mem_cons, ih]
      tauto

lemma pairwise_insertSeg :
    ∀ (l : List (Nat × Nat)) (s : Nat × Nat),
      List.Pairwise (fun x y => x.1 ≤ y.1) l →
      List.Pairwise (fun x y => x.1 ≤ y.1) (BlockIndex.insertSeg s l) := by
  intro l
  induction l with
  | nil => intro s _; simp [BlockIndex.insertSeg]
  | cons t rest ih =>
    intro s hp
    rw [List.pairwise_cons] at hp
    rw [BlockIndex.insertSeg]
    by_cases h : s.1 ≤ t.1
    · rw [if_pos h]
      rw [List.pairwise_cons]
      refine ⟨?_, List.pairwise_cons.mpr hp⟩
      intro u hu
      rcases List.mem_cons.mp hu with rfl | hu2
      · exact h
      · exact le_trans h (hp.1 u hu2)
    · rw [if_neg h]
      rw [List.pairwise_cons]
      constructor
      · intro u hu
        rcases (mem_insertSeg rest s u).mp hu with rfl | hu2
        · omega
        · exact hp.1 u hu2
      · exact ih s hp.2

lemma pairwise_sort (l : List (Nat × Nat)) :
    List.Pairwise (fun x y => x.1 ≤ y.1) (BlockIndex.sort l) := by
  induction l with
  | nil => simp [BlockIndex.sort]
  | cons s rest ih => exact pairwise_insertSeg _ s ih

lemma mergeGo_canonFrom :
    ∀ (l : List (Nat × Nat)) (cur : Nat × Nat) (B : Nat), B ≤ cur.1 →
      (∀ t ∈ l, cur.1 ≤ t.1) → List.Pairwise (fun x y => x.1 ≤ y.1) l →
      canonFrom B (BlockIndex.mergeGo cur l) := by
  intro l
  induction l with
  | nil =>
    intro cur B hB _ _
    rw [BlockIndex.mergeGo]
    split_ifs with h
    · exact ⟨hB, h, trivial⟩
    · trivial
  | cons t rest ih =>
    intro cur B hB hlow hp
    rw [List.pairwise_cons] at hp
    rw [BlockIndex.mergeGo]
    by_cases hm : t.1 ≤ cur.1 + cur.2
    · rw [if_pos hm]
      refine ih (cur.1, max (cur.1 + cur.2) (t.1 + t.2) - cur.1) B hB ?_ hp.2
      intro u hu
      exact le_trans (hlow t (List.mem_cons_self _ _)) (hp.1 u hu)
    · rw [if_neg hm]
      by_cases hpos : 0 < cur.2
      · rw [if_pos hpos]
        refine ⟨hB, hpos, ?_⟩
        exact ih t (cur.1 + cur.2 + 1) (by omega) hp.1 hp.2
      · rw [if_neg hpos]
        exact ih t B (le_trans hB (hlow t (List.mem_cons_self _ _))) hp.1 hp.2

lemma shrink_canonical (l : List (Nat × Nat)) : canonical (BlockIndex.shrink l) := by
  rw [BlockIndex.shrink]
  cases hs : BlockIndex.sort l with
  | nil => trivial
  | cons s rest =>
    have hp := pairwise_sort l
    rw [hs, List.pairwise_cons] at hp
    exact mergeGo_canonFrom rest s 0 (Nat.zero_le _) hp.1 hp.2

lemma canonFrom_imp {B : Nat} {l : List (Nat × Nat)} (h : canonFrom B l) :
    (∀ s ∈ l, 0 < s.2) ∧ List.Chain' (fun s t => s.1 + s.2 < t.1) l := by
  induction l generalizing B with
  | nil => exact ⟨by simp, List.chain'_nil⟩
  | cons s rest ih =>
    rcases h with ⟨_, hpos, hrest⟩
    rcases ih hrest with ⟨hall, hchain⟩
    constructor
    · intro u hu
      rcases List.mem_cons.mp hu with rfl | hu2
      · exact hpos
      · exact hall u hu2
    · rw [List.chain'_cons']
      refine ⟨?_, hchain⟩
      intro u hu
      cases rest with
      | nil => cases hu
      | cons v rest2 =>
        simp only [List.head?_cons, Option.mem_def, Option.some.injEq] at hu
        subst hu
        have := hrest.1
        omega

lemma imp_canonFrom :
    ∀ (l : List (Nat × Nat)) (B : Nat), (∀ s ∈ l, 0 < s.2) →
      List.Chain' (fun s t => s.1 + s.2 < t.1) l →
      (∀ t, l.head? = some t → B ≤ t.1) → canonFrom B l := by
  intro l
  induction l with
  | nil => intro B _ _ _; trivial
  | cons s rest ih =>
    intro B hall hchain hhead
    rw [List.chain'_cons'] at hchain
    refine ⟨hhead s rfl, hall s (List.mem_cons_self _ _), ?_⟩
    refine ih (s.1 + s.2 + 1) (fun u hu => hall u (List.mem_cons_of_mem _ hu)) hchain.2 ?_
    intro t ht
    have := hchain.1 t (by rw [Option.mem_def]; exact ht)
    omega

lemma canonical_iff (l : List (Nat × Nat)) :
    canonical l ↔ ((∀ s ∈ l, 0 < s.2) ∧ List.Chain' (fun s t => s.1 + s.2 < t.1) l) := by
  constructor
  · exact canonFrom_imp
  · intro ⟨h1, h2⟩
    exact imp_canonFrom l 0 h1 h2 (fun t _ => Nat.zero_le _)

/-- C7: every algebra operation documented to return canonical output
    (`shrink`, `add`, `complement`, `split`, `extract`) returns a canonical
    sequence — no length-0 segments, sorted ascending by start with pairwise
    non-overlapping, non-adjacent segments (the first conjunct spells out what
    `canonical` means); and `shrink {[1,3),[0,1),[0,0)} = {[0,3)}` with
    cardinal 3. -/
theorem canonical_outputs :
    (∀ l, canonical l ↔
      ((∀ s ∈ l, 0 < s.2) ∧ List.Chain' (fun s t => s.1 + s.2 < t.1) l)) ∧
    (∀ l, canonical (BlockIndex.shrink l)) ∧
    (∀ l s, canonical (BlockIndex.add l s)) ∧
    (∀ size ivs junk, canonical (complement size ivs junk)) ∧
    (∀ S n, canonical S →
      canonical (BlockIndex.split S n).1 ∧ canonical (BlockIndex.split S n).2) ∧
    (∀ S off n, canonical S → canonical (BlockIndex.extract S off n)) ∧
    BlockIndex.shrink [(1, 2), (0, 1), (0, 0)] = [(0, 3)] ∧
    cardinal (BlockIndex.shrink [(1, 2), (0, 1), (0, 0)]) = 3 := by
  refine ⟨canonical_iff, shrink_canonical, ?_, ?_, ?_, ?_, by decide, by decide⟩
  · intro l s
    exact shrink_canonical (l ++ [s])
  · intro size ivs junk
    rw [complement_eq_runs]
    exact (canonFrom_runs _ 0).1
  · intro S n hS
    exact split_canonFrom S n 0 hS
  · intro S off n hS
    exact (split_canonFrom (BlockIndex.split S off).2 n 0 (split_canonFrom S off 0 hS).2).1

theorem canonical_outputs_w :
    canonical (BlockIndex.shrink [(1, 2), (0, 1), (0, 0)]) ∧
    canonical (BlockIndex.split [(4, 3), (9, 2), (15, 5)] 7).2 :=
  ⟨canonical_outputs.2.1 [(1, 2), (0, 1), (0, 0)],
   (canonical_outputs.2.2.2.2.1 [(4, 3), (9, 2), (15, 5)] 7 (by decide)).2⟩

/-- C5: for every matrix and every Block View fitting its dimensions, the
    writable and read-only projections select the same entries element-wise,
    and `V.rview(m)` equals `V.transpose().rview(m.transpose()).transpose()`. -/
theorem view_read_paths (V : BlockView) (m : MatD) (_hf : fits V m) :
    (∀ p q, p < V.nbRows → q < V.nbCols →
      V.lviewEntry m p q = (V.rview m).entry p q) ∧
    MatD.EqD (V.rview m) ((V.transpose.rview m.transpose).transpose) :=
  ⟨fun _ _ _ _ => rfl, ⟨rfl, rfl, fun _ _ _ _ => rfl⟩⟩

theorem view_read_paths_w :
    fits vW mW ∧ vW.lviewEntry mW 0 0 = (vW.rview mW).entry 0 0 :=
  ⟨⟨by decide, by decide⟩,
   (view_read_paths vW mW ⟨by decide, by decide⟩).1 0 0 (by decide) (by decide)⟩

/-- C6: zeroing the writable projection makes every entry of the read-only
    projection zero, while every backing entry at a position not selected by
    the view keeps its previous value. -/
theorem lview_zero_frame (V : BlockView) (m : MatD) (_hf : fits V m) :
    (∀ p q, p < V.nbRows → q < V.nbCols →
      (V.rview (V.lviewSetZero m)).entry p q = 0) ∧
    (∀ i j, V.selected i j = false → (V.lviewSetZero m).entry i j = m.entry i j) := by
  constructor
  · intro p q hp hq
    have hr : V.rowIdx p ∈ indicesOf V.rowSet := by
      rw [BlockView.rowIdx,
        List.getD_eq_getElem _ _ (by rw [length_indicesOf]; exact hp)]
      exact List.getElem_mem _
    have hc : V.colIdx q ∈ indicesOf V.colSet := by
      rw [BlockView.colIdx,
        List.getD_eq_getElem _ _ (by rw [length_indicesOf]; exact hq)]
      exact List.getElem_mem _
    have hsel : V.selected (V.rowIdx p) (V.colIdx q) = true := by
      rw [BlockView.selected, Bool.and_eq_true]
      exact ⟨List.elem_iff.mpr hr, List.elem_iff.mpr hc⟩
    show (if V.selected (V.rowIdx p) (V.colIdx q) then (0 : Int)
      else m.entry (V.rowIdx p) (V.colIdx q)) = 0
    rw [hsel]
    rfl
  · intro i j hsel
    show (if V.selected i j then (0 : Int) else m.entry i j) = m.entry i j
    rw [hsel]
    rfl

theorem lview_zero_frame_w :
    (vW.rview (vW.lviewSetZero mW)).entry 0 0 = 0 ∧
    (vW.lviewSetZero mW).entry 1 0 = mW.entry 1 0 :=
  ⟨(lview_zero_frame vW mW ⟨by decide, by decide⟩).1 0 0 (by decide) (by decide),
   (lview_zero_frame vW mW ⟨by decide, by decide⟩).2 1 0 (by decide)⟩
